import Mathlib

/-!
# Verification of the course-calendar event model

Shallow embedding of `src/course.rs` (the event-model core of the
course-calendar program): the schedule model (`Course`, `Week`, `Session`,
`RepeatSession`, `Assignment`, `Submission`, `Presentation`), the
recurrence expander (`Course.generate_repeats`), the event projector
(`Course.events`, `Assignment.events`) and the event ordering (derived
`Ord` instances, modelled as explicit comparators).

Timestamps (`chrono::DateTime<FixedOffset>`) are modelled as `Int`
(seconds on the absolute time line; chrono's `Ord` compares instants).
Durations (`chrono::Duration`) are `Int` seconds.  `Url` is modelled as
its serialized `String` (its `Ord` compares serializations).  Rust's
derived `Ord` compares fields in declaration order, `Option` with
`None < Some`, `Vec` lexicographically, `String` bytewise (which equals
code-point order on UTF-8); the comparators below reproduce this.
-/

open Batteries (OrientedCmp TransCmp)

/-- Comparator on `Option`, as Rust derives it: `None < Some`,
`Some` compared by the payload comparator. -/
def cmpOption (cmp : α → α → Ordering) : Option α → Option α → Ordering
  | none, none => .eq
  | none, some _ => .lt
  | some _, none => .gt
  | some a, some b => cmp a b

/-- Lexicographic comparator on `List`, as Rust derives it for `Vec`:
elementwise, a strict prefix is smaller. -/
def cmpList (cmp : α → α → Ordering) : List α → List α → Ordering
  | [], [] => .eq
  | [], _ :: _ => .lt
  | _ :: _, [] => .gt
  | a :: as, b :: bs => (cmp a b).then (cmpList cmp as bs)

instance cmpOption.instOriented (cmp : α → α → Ordering) [inst : OrientedCmp cmp] :
    OrientedCmp (cmpOption cmp) where
  symm a b := by
    cases a with
    | none => cases b <;> rfl
    | some x =>
      cases b with
      | none => rfl
      | some y => exact inst.symm ..

instance cmpOption.instTrans (cmp : α → α → Ordering) [inst : TransCmp cmp] :
    TransCmp (cmpOption cmp) where
  le_trans {a b c} h₁ h₂ := by
    cases a with
    | none => cases c <;> simp [cmpOption]
    | some x =>
      cases b with
      | none => exact absurd rfl h₁
      | some y =>
        cases c with
        | none => exact absurd rfl h₂
        | some z => exact inst.le_trans h₁ h₂

instance cmpList.instOriented (cmp : α → α → Ordering) [inst : OrientedCmp cmp] :
    OrientedCmp (cmpList cmp) where
  symm a b := by
    induction a generalizing b with
    | nil => cases b <;> rfl
    | cons x xs ih =>
      cases b with
      | nil => rfl
      | cons y ys => simp [cmpList, Ordering.swap_then, inst.symm, ih]

instance cmpList.instTrans (cmp : α → α → Ordering) [inst : TransCmp cmp] :
    TransCmp (cmpList cmp) where
  le_trans {a b c} h₁ h₂ := by
    induction a generalizing b c with
    | nil => cases c <;> simp [cmpList]
    | cons x xs ih =>
      cases b with
      | nil => simp [cmpList] at h₁
      | cons y ys =>
        cases c with
        | nil => simp [cmpList] at h₂
        | cons z zs =>
          simp only [cmpList, ne_eq, Ordering.then_eq_gt, not_or, not_and] at h₁ h₂ ⊢
          refine ⟨inst.le_trans h₁.1 h₂.1, fun exz => ?_⟩
          cases exy : cmp x y with
          | gt => exact (h₁.1 exy).elim
          | lt =>
            exact (h₂.1 (Batteries.OrientedCmp.cmp_eq_gt.2
              ((inst.cmp_congr_left exz).symm.trans exy))).elim
          | eq =>
            have eyz : cmp y z = .eq := (inst.cmp_congr_left exy).symm.trans exz
            exact ih (h₁.2 exy) (h₂.2 eyz)

/-- Model of `Session`: a concrete scheduled occurrence
(`struct Session` in `course.rs`).  Field order matters: the derived
`Ord` compares `(time, title, location, presenters, kind, duration)`. -/
structure Session where
  time : Int
  title : Option String
  location : Option String
  presenters : List String
  kind : String
  duration : Int
deriving Repr, DecidableEq, Inhabited

/-- Derived `Ord` of `Session`: lexicographic in declared field order. -/
def Session.cmp : Session → Session → Ordering :=
  compareLex (Ordering.byKey Session.time compare) <|
  compareLex (Ordering.byKey Session.title (cmpOption compare)) <|
  compareLex (Ordering.byKey Session.location (cmpOption compare)) <|
  compareLex (Ordering.byKey Session.presenters (cmpList compare)) <|
  compareLex (Ordering.byKey Session.kind compare) <|
  Ordering.byKey Session.duration compare

instance Session.cmp.instTrans : TransCmp Session.cmp :=
  inferInstanceAs (TransCmp (compareLex _ _))

/-- Model of `Week`: a `start` timestamp and its list of concrete sessions
(`struct Week`). -/
structure Week where
  start : Int
  sessions : List Session
deriving Repr, DecidableEq, Inhabited

/-- Model of `RepeatSession`: a recurring-session template (`struct RepeatSession`). -/
structure RepeatSession where
  first : Int
  title : Option String
  location : Option String
  presenters : List String
  kind : String
  duration : Int
  weeks : List Nat
deriving Repr, DecidableEq, Inhabited

/-- Model of `RepeatSession::duplicate`: instantiate the template in a week whose
start is `week_start`, anchored by the offset of `first` from the start
of the reference week. -/
def RepeatSession.duplicate (s : RepeatSession) (first_week : Int) (week_start : Int) : Session :=
  let offset := s.first - first_week
  { kind := s.kind
    title := s.title
    presenters := s.presenters
    location := s.location
    time := week_start + offset
    duration := s.duration }

/-- Model of `Submission`: a deadline of an assignment (`struct Submission`). -/
structure Submission where
  time : Int
  name : String
  description : Option String
deriving Repr, DecidableEq, Inhabited

/-- Derived `Ord` of `Submission`: `(time, name, description)`. -/
def Submission.cmp : Submission → Submission → Ordering :=
  compareLex (Ordering.byKey Submission.time compare) <|
  compareLex (Ordering.byKey Submission.name compare) <|
  Ordering.byKey Submission.description (cmpOption compare)

instance Submission.cmp.instTrans : TransCmp Submission.cmp :=
  inferInstanceAs (TransCmp (compareLex _ _))

/-- Model of `Presentation`: a presentation attached to sessions of a given kind
(`struct Presentation`). -/
structure Presentation where
  name : String
  session : String
  description : Option String
  weeks : List Nat
deriving Repr, DecidableEq, Inhabited

/-- Derived `Ord` of `Presentation`: `(name, session, description, weeks)`. -/
def Presentation.cmp : Presentation → Presentation → Ordering :=
  compareLex (Ordering.byKey Presentation.name compare) <|
  compareLex (Ordering.byKey Presentation.session compare) <|
  compareLex (Ordering.byKey Presentation.description (cmpOption compare)) <|
  Ordering.byKey Presentation.weeks (cmpList compare)

instance Presentation.cmp.instTrans : TransCmp Presentation.cmp :=
  inferInstanceAs (TransCmp (compareLex _ _))

/-- Model of `Assignment` (`struct Assignment`): name, optional description, link,
optional point value, submissions and presentations. -/
structure Assignment where
  name : String
  description : Option String
  link : String
  value : Option Nat
  submissions : List Submission
  presentations : List Presentation
deriving Repr, DecidableEq, Inhabited

/-- Derived `Ord` of `Assignment`: declared field order. -/
def Assignment.cmp : Assignment → Assignment → Ordering :=
  compareLex (Ordering.byKey Assignment.name compare) <|
  compareLex (Ordering.byKey Assignment.description (cmpOption compare)) <|
  compareLex (Ordering.byKey Assignment.link compare) <|
  compareLex (Ordering.byKey Assignment.value (cmpOption compare)) <|
  compareLex (Ordering.byKey Assignment.submissions (cmpList Submission.cmp)) <|
  Ordering.byKey Assignment.presentations (cmpList Presentation.cmp)

instance Assignment.cmp.instTrans : TransCmp Assignment.cmp :=
  inferInstanceAs (TransCmp (compareLex _ _))

/-- Model of `Course` (`struct Course`): the root aggregate. -/
structure Course where
  code : String
  name : String
  link : String
  weeks : List Week
  assignments : List Assignment
  repeat_sessions : List RepeatSession
deriving Repr, DecidableEq, Inhabited

/-- The `failure::Error` values produced by `Course::generate_repeats`:
both `format_err!` messages carry the template's `kind` and the
offending week index (`refOutOfRange` for the "Requested repeat of {} …"
message on the reference week, `targetOutOfRange` for the
"Tried to schedule repeat of {} …" message on a target week). -/
inductive ExpandError where
  | refOutOfRange (kind : String) (week : Nat)
  | targetOutOfRange (kind : String) (week : Nat)
deriving Repr, DecidableEq

/-- The template kind carried by an expansion error. -/
def ExpandError.kind : ExpandError → String
  | .refOutOfRange k _ => k
  | .targetOutOfRange k _ => k

/-- The offending week index carried by an expansion error. -/
def ExpandError.week : ExpandError → Nat
  | .refOutOfRange _ w => w
  | .targetOutOfRange _ w => w

/-- The inner loop of `Course::generate_repeats`: walk one template's
target-week list, bounds-checking each index and pushing
`(week_no, duplicate)` pairs. -/
def collectTargets (s : RepeatSession) (first_week : Int) (weeks : List Week) :
    List Nat → Except ExpandError (List (Nat × Session))
  | [] => .ok []
  | w :: ws =>
    match weeks[w]? with
    | none => .error (.targetOutOfRange s.kind w)
    | some wk =>
      match collectTargets s first_week weeks ws with
      | .error e => .error e
      | .ok rest => .ok ((w, s.duplicate first_week wk.start) :: rest)

/-- The first loop of `Course::generate_repeats`: accumulate the
`(week_no, session)` pairs of every template, in template order.  A
template with an empty week list is skipped (`continue`); a reference
week out of range raises the "Requested repeat of …" error before any
target is visited. -/
def collectRepeats (weeks : List Week) :
    List RepeatSession → Except ExpandError (List (Nat × Session))
  | [] => .ok []
  | s :: rest =>
    match s.weeks[0]? with
    | none => collectRepeats weeks rest
    | some first =>
      match weeks[first]? with
      | none => .error (.refOutOfRange s.kind first)
      | some fw =>
        match collectTargets s fw.start weeks s.weeks with
        | .error e => .error e
        | .ok pairs =>
          match collectRepeats weeks rest with
          | .error e => .error e
          | .ok restPairs => .ok (pairs ++ restPairs)

/-- Model of `self.weeks[week].sessions.push(session)`: append one session to the
week at the given index (indices are in bounds whenever the collect
phase succeeded, which is the only case in which this is reached). -/
def appendAt (weeks : List Week) (i : Nat) (s : Session) : List Week :=
  match weeks, i with
  | [], _ => []
  | w :: ws, 0 => { w with sessions := w.sessions ++ [s] } :: ws
  | w :: ws, n + 1 => w :: appendAt ws n s

/-- The second loop of `Course::generate_repeats`: drain the collected
pairs in order, appending each session to its target week. -/
def applyPushes (weeks : List Week) : List (Nat × Session) → List Week
  | [] => weeks
  | (w, s) :: rest => applyPushes (appendAt weeks w s) rest

/-- Model of `Course::generate_repeats(&mut self) -> Result<(), Error>`,
as the returned error (if any) together with the final state of the
course.  The Rust function bounds-checks and collects every pair before
mutating anything, so on error the course is returned unchanged. -/
def Course.generate_repeats (c : Course) : Option ExpandError × Course :=
  match collectRepeats c.weeks c.repeat_sessions with
  | .error e => (some e, c)
  | .ok pairs => (none, { c with weeks := applyPushes c.weeks pairs })

/-- Model of `enum EventBase`: the provenance of an event.  The derived `Ord`
orders the variants `Session < Submission < Presentation` and compares
payloads lexicographically within a variant.  (The Rust variants hold
references; `Ord` on references compares the pointees, so the embedding
holds the values themselves.) -/
inductive EventBase where
  | session : Session → EventBase
  | submission : Assignment → Submission → EventBase
  | presentation : Assignment → Presentation → Session → EventBase
deriving Repr, DecidableEq

/-- Discriminant of `EventBase`, in the variant declaration order used
by Rust's derived `Ord`. -/
def EventBase.tag : EventBase → Nat
  | .session _ => 0
  | .submission _ _ => 1
  | .presentation _ _ _ => 2

/-- Derived `Ord` of `enum EventBase`: discriminant first, then the
variant's fields in order. -/
def EventBase.cmp : EventBase → EventBase → Ordering
  | .session a, .session b => Session.cmp a b
  | .session _, .submission _ _ => .lt
  | .session _, .presentation _ _ _ => .lt
  | .submission _ _, .session _ => .gt
  | .submission a s, .submission b t => (Assignment.cmp a b).then (Submission.cmp s t)
  | .submission _ _, .presentation _ _ _ => .lt
  | .presentation _ _ _, .session _ => .gt
  | .presentation _ _ _, .submission _ _ => .gt
  | .presentation a p s, .presentation b q t =>
    (Assignment.cmp a b).then ((Presentation.cmp p q).then (Session.cmp s t))

/-- Model of `struct Event`: a start time plus provenance. -/
structure Event where
  start : Int
  base : EventBase
deriving Repr, DecidableEq

/-- Derived `Ord` of `struct Event`: `start`, then `base`. -/
def Event.cmp : Event → Event → Ordering :=
  compareLex (Ordering.byKey Event.start compare) (Ordering.byKey Event.base EventBase.cmp)

/-- The boolean `≤` induced by the derived `Ord`, as used by
`Vec::sort` (`a ≤ b ↔ a.cmp(b) != Greater`). -/
def Event.le (a b : Event) : Bool := Event.cmp a b ≠ .gt

/-- Model of `Event::duration`: the session's duration for session- and
presentation-derived events, `Duration::minutes(5)` (= 300 seconds) for
submission-derived events. -/
def Event.duration (e : Event) : Int :=
  match e.base with
  | .session s => s.duration
  | .submission _ _ => 5 * 60
  | .presentation _ _ s => s.duration

/-- Model of `Event::end`: `self.start() + self.duration()` (named `endTime`
because `end` is reserved in Lean). -/
def Event.endTime (e : Event) : Int := e.start + e.duration

/-- Model of `Event::title`. -/
def Event.title (e : Event) : String :=
  match e.base with
  | .session s =>
    match s.title with
    | some t => t ++ " (" ++ s.kind ++ ")"
    | none => "(" ++ s.kind ++ ")"
  | .submission a s => a.name ++ ": " ++ s.name ++ " (submission)"
  | .presentation a p _ => a.name ++ ": " ++ p.name ++ " (presentation)"

/-- Model of `Event::location`. -/
def Event.location (e : Event) : Option String :=
  match e.base with
  | .session s => s.location
  | .submission _ _ => none
  | .presentation _ _ s => s.location

/-- Model of `Event::presenters`. -/
def Event.presenters (e : Event) : List String :=
  match e.base with
  | .session s => s.presenters
  | .submission _ _ => []
  | .presentation _ _ s => s.presenters

/-- Model of `Event::description`: a submission's or presentation's own
description when present, otherwise the assignment's. -/
def Event.description (e : Event) : Option String :=
  match e.base with
  | .session _ => none
  | .submission a s =>
    match s.description with
    | some d => some d
    | none => a.description
  | .presentation a p _ =>
    match p.description with
    | some d => some d
    | none => a.description

/-- Model of `Event::link`: the assignment's link for submission- and
presentation-derived events. -/
def Event.link (e : Event) : Option String :=
  match e.base with
  | .session _ => none
  | .submission a _ => some a.link
  | .presentation a _ _ => some a.link

/-- The `presentations` iterator built in `Assignment::events`:
`presentations.iter().flat_map(p ↦ weeks of p).flat_map(look up week,
an Option used as a 0/1-element iterator).flat_map(sessions of week)`,
yielding `(session, presentation)` pairs. -/
def Assignment.presentationPairs (a : Assignment) (c : Course) : List (Session × Presentation) :=
  ((a.presentations.flatMap fun p => p.weeks.map fun w => (w, p)).flatMap fun wp =>
      ((c.weeks[wp.1]?).map fun wk => (wk, wp.2)).toList).flatMap fun wkp =>
    wkp.1.sessions.map fun s => (s, wkp.2)

/-- Model of `Assignment::events`: `AssignmentEvents::next` drains the submissions iterator first, then
the presentation pairs, skipping pairs whose session kind differs from
the presentation's `session` label.  So `Assignment::events` yields the
submission events followed by the kind-matching presentation events. -/
def Assignment.events (a : Assignment) (c : Course) : List Event :=
  (a.submissions.map fun s => { start := s.time, base := .submission a s }) ++
    ((a.presentationPairs c).filter fun sp => sp.1.kind == sp.2.session).map
      fun sp => { start := sp.1.time, base := .presentation a sp.2 sp.1 }

/-- Model of `Course::events`: all session events (weeks in order, sessions in
order), then each assignment's events, sorted by the derived `Ord`
(`Vec::sort` is a stable merge sort). -/
def Course.events (c : Course) : List Event :=
  ((c.weeks.flatMap fun w => w.sessions).map
      (fun s => ({ start := s.time, base := .session s } : Event)) ++
    c.assignments.flatMap fun a => a.events c).mergeSort Event.le

/-! ### Concrete sample data (used to instantiate the theorems below) -/

/-- A concrete lecture session in the first sample week. -/
def sampleSession : Session :=
  { time := 100, title := some "Intro", location := some "Hall"
    presenters := ["Ada"], kind := "lecture", duration := 3600 }

/-- First sample week. -/
def sampleWeek0 : Week := { start := 0, sessions := [sampleSession] }

/-- Second sample week, one (7-day) week later, with no native sessions. -/
def sampleWeek1 : Week := { start := 604800, sessions := [] }

/-- A recurring-session template targeting both sample weeks. -/
def sampleRepeat : RepeatSession :=
  { first := 3700, title := some "Tut", location := none, presenters := []
    kind := "tutorial", duration := 1800, weeks := [0, 1] }

/-- A submission without its own description. -/
def sampleSubmission : Submission :=
  { time := 50, name := "draft", description := none }

/-- A presentation attached to lecture sessions of week 0. -/
def samplePresentation : Presentation :=
  { name := "demo", session := "lecture", description := none, weeks := [0] }

/-- A sample assignment with one submission and one presentation. -/
def sampleAssignment : Assignment :=
  { name := "Essay", description := some "X", link := "https://example.org/a"
    value := some 10, submissions := [sampleSubmission]
    presentations := [samplePresentation] }

/-- The main sample course. -/
def sampleCourse : Course :=
  { code := "COMP1234", name := "Calendars", link := "https://example.org"
    weeks := [sampleWeek0, sampleWeek1], assignments := [sampleAssignment]
    repeat_sessions := [sampleRepeat] }

/-- A course whose only template references a non-existent week. -/
def badCourse : Course :=
  { code := "COMP1234", name := "Calendars", link := "https://example.org"
    weeks := [sampleWeek0, sampleWeek1], assignments := []
    repeat_sessions := [{ sampleRepeat with weeks := [99] }] }

/-- A course whose only template has an empty week list. -/
def emptyWeeksCourse : Course :=
  { code := "COMP1234", name := "Calendars", link := "https://example.org"
    weeks := [sampleWeek0, sampleWeek1], assignments := []
    repeat_sessions := [{ sampleRepeat with weeks := [] }] }

/-- What one template contributes according to the anchor rule: for each
listed week index `i`, one pair `(i, duplicate)` anchored on the week
named by the first listed index.  (Out-of-range lookups are padded with
`default`; the lemmas below only use this in the in-range case.) -/
def templateContribution (weeks : List Week) (t : RepeatSession) : List (Nat × Session) :=
  match t.weeks[0]? with
  | none => []
  | some w0 =>
    t.weeks.map fun i =>
      (i, t.duplicate ((weeks[w0]?).getD default).start ((weeks[i]?).getD default).start)

/-- The `(session, presentation)` pairs contributed by one presentation
for one listed week index (before the kind filter): all sessions of the
week when the index is in range, nothing otherwise. -/
def pairsForWeek (c : Course) (p : Presentation) (w : Nat) : List (Session × Presentation) :=
  match c.weeks[w]? with
  | none => []
  | some wk => wk.sessions.map fun s => (s, p)

/-- Total number of concrete sessions across all weeks. -/
def Course.sessionCount (c : Course) : Nat := (c.weeks.map fun w => w.sessions.length).sum

/-- Total number of submissions across all assignments. -/
def Course.submissionCount (c : Course) : Nat :=
  (c.assignments.map fun a => a.submissions.length).sum

/-- The number of sessions matching one presentation: per in-range
listed week, the sessions of that week whose kind equals the
presentation's `session` label; out-of-range weeks contribute zero. -/
def Presentation.matchCount (c : Course) (p : Presentation) : Nat :=
  (p.weeks.map fun w =>
    match c.weeks[w]? with
    | none => 0
    | some wk => (wk.sessions.filter fun s => s.kind == p.session).length).sum

/-- Total number of matching presentation/session pairs. -/
def Course.matchingPairCount (c : Course) : Nat :=
  (c.assignments.map fun a => (a.presentations.map (Presentation.matchCount c)).sum).sum

/-- The sample course with its templates removed. -/
def noRepeatsCourse : Course := { sampleCourse with repeat_sessions := [] }

/-! ### Lawfulness of the comparators -/

/-- The payload comparator of the `Submission` variant of `EventBase`. -/
def subPairCmp : Assignment × Submission → Assignment × Submission → Ordering :=
  compareLex (Ordering.byKey Prod.fst Assignment.cmp) (Ordering.byKey Prod.snd Submission.cmp)

instance subPairCmp.instTrans : TransCmp subPairCmp :=
  inferInstanceAs (TransCmp (compareLex _ _))

/-- The payload comparator of the `Presentation` variant of `EventBase`. -/
def presTripleCmp :
    Assignment × Presentation × Session → Assignment × Presentation × Session → Ordering :=
  compareLex (Ordering.byKey (fun x => x.1) Assignment.cmp) <|
  compareLex (Ordering.byKey (fun x => x.2.1) Presentation.cmp)
    (Ordering.byKey (fun x => x.2.2) Session.cmp)

instance presTripleCmp.instTrans : TransCmp presTripleCmp :=
  inferInstanceAs (TransCmp (compareLex _ _))

instance EventBase.cmp.instOriented : OrientedCmp EventBase.cmp where
  symm x y := by
    cases x <;> cases y <;>
      first
      | rfl
      | exact @OrientedCmp.symm _ Session.cmp _ _ _
      | exact @OrientedCmp.symm _ subPairCmp _ (_, _) (_, _)
      | exact @OrientedCmp.symm _ presTripleCmp _ (_, _, _) (_, _, _)

instance EventBase.cmp.instTrans : TransCmp EventBase.cmp where
  le_trans {x y z} h₁ h₂ := by
    cases x <;> cases y <;> cases z <;>
      first
      | exact absurd rfl h₁
      | exact absurd rfl h₂
      | (simp [EventBase.cmp]; done)
      | exact @TransCmp.le_trans _ Session.cmp _ _ _ _ h₁ h₂
      | exact @TransCmp.le_trans _ subPairCmp _ (_, _) (_, _) (_, _) h₁ h₂
      | exact @TransCmp.le_trans _ presTripleCmp _ (_, _, _) (_, _, _) (_, _, _) h₁ h₂

instance Event.cmp.instTrans : TransCmp Event.cmp :=
  inferInstanceAs (TransCmp (compareLex _ _))

/-- Transitivity: `Event.le` is transitive (hypothesis form used by `sorted_mergeSort`). -/
theorem Event.le_trans (a b c : Event) (h₁ : Event.le a b) (h₂ : Event.le b c) :
    Event.le a c := by
  simp only [Event.le, ne_eq, decide_eq_true_eq] at h₁ h₂ ⊢
  exact @TransCmp.le_trans _ Event.cmp _ _ _ _ h₁ h₂

/-! ### Properties of the recurrence expander -/

theorem collectTargets_ok {s : RepeatSession} {fs : Int} {weeks : List Week} :
    ∀ {targets : List Nat} {ps}, collectTargets s fs weeks targets = .ok ps →
      (∀ i ∈ targets, i < weeks.length) ∧
      ps = targets.map fun i => (i, s.duplicate fs ((weeks[i]?).getD default).start) := by
  intro targets
  induction targets with
  | nil =>
    intro ps h
    simp only [collectTargets, Except.ok.injEq] at h
    simp [← h]
  | cons w ws ih =>
    intro ps h
    simp only [collectTargets] at h
    cases hw : weeks[w]? with
    | none => rw [hw] at h; cases h
    | some wk =>
      rw [hw] at h
      cases hr : collectTargets s fs weeks ws with
      | error e => rw [hr] at h; cases h
      | ok rest =>
        rw [hr] at h
        simp only [Except.ok.injEq] at h
        obtain ⟨hb, hps⟩ := ih hr
        subst h
        refine ⟨fun i hi => ?_, ?_⟩
        · rcases List.mem_cons.1 hi with rfl | hi
          · exact (List.getElem?_eq_some_iff.1 hw).1
          · exact hb i hi
        · simp [hps, hw]

theorem collectTargets_error {s : RepeatSession} {fs : Int} {weeks : List Week} :
    ∀ {targets : List Nat} {e}, collectTargets s fs weeks targets = .error e →
      ∃ w ∈ targets, e = .targetOutOfRange s.kind w ∧ weeks.length ≤ w := by
  intro targets
  induction targets with
  | nil => intro e h; simp [collectTargets] at h
  | cons w ws ih =>
    intro e h
    simp only [collectTargets] at h
    cases hw : weeks[w]? with
    | none =>
      rw [hw] at h
      simp only [Except.error.injEq] at h
      exact ⟨w, List.mem_cons_self .., h.symm, List.getElem?_eq_none_iff.1 hw⟩
    | some wk =>
      rw [hw] at h
      cases hr : collectTargets s fs weeks ws with
      | error e' =>
        rw [hr] at h
        simp only [Except.error.injEq] at h
        obtain ⟨w', hmem, he, hge⟩ := ih hr
        exact ⟨w', List.mem_cons_of_mem _ hmem, h ▸ he, hge⟩
      | ok rest => rw [hr] at h; cases h

theorem collectRepeats_ok {weeks : List Week} :
    ∀ {ts : List RepeatSession} {ps}, collectRepeats weeks ts = .ok ps →
      (∀ t ∈ ts, ∀ i ∈ t.weeks, i < weeks.length) ∧
      ps = ts.flatMap (templateContribution weeks) := by
  intro ts
  induction ts with
  | nil =>
    intro ps h
    simp only [collectRepeats, Except.ok.injEq] at h
    simp [← h]
  | cons s rest ih =>
    intro ps h
    simp only [collectRepeats] at h
    cases hw0 : s.weeks[0]? with
    | none =>
      simp only [hw0] at h
      obtain ⟨hb, hps⟩ := ih h
      have hsw : s.weeks = [] := by
        cases hsw : s.weeks with
        | nil => rfl
        | cons a l => rw [hsw] at hw0; simp at hw0
      refine ⟨fun t ht => ?_, ?_⟩
      · rcases List.mem_cons.1 ht with rfl | ht
        · intro i hi; rw [hsw] at hi; cases hi
        · exact hb t ht
      · simp [hps, templateContribution, hw0]
    | some first =>
      simp only [hw0] at h
      cases hf : weeks[first]? with
      | none => simp [hf] at h
      | some fw =>
        simp only [hf] at h
        cases htg : collectTargets s fw.start weeks s.weeks with
        | error e => simp [htg] at h
        | ok pairs =>
          simp only [htg] at h
          cases hrest : collectRepeats weeks rest with
          | error e => simp [hrest] at h
          | ok restPairs =>
            simp only [hrest, Except.ok.injEq] at h
            obtain ⟨hb₁, hpairs⟩ := collectTargets_ok htg
            obtain ⟨hb₂, hrestPairs⟩ := ih hrest
            subst h
            refine ⟨fun t ht => ?_, ?_⟩
            · rcases List.mem_cons.1 ht with rfl | ht
              · exact hb₁
              · exact hb₂ t ht
            · simp only [List.flatMap_cons, templateContribution, hw0, hf]
              rw [hpairs, hrestPairs]
              simp [hf]

theorem collectRepeats_error {weeks : List Week} :
    ∀ {ts : List RepeatSession} {e}, collectRepeats weeks ts = .error e →
      ∃ t ∈ ts, e.kind = t.kind ∧ e.week ∈ t.weeks ∧ weeks.length ≤ e.week := by
  intro ts
  induction ts with
  | nil => intro e h; simp [collectRepeats] at h
  | cons s rest ih =>
    intro e h
    simp only [collectRepeats] at h
    cases hw0 : s.weeks[0]? with
    | none =>
      simp only [hw0] at h
      obtain ⟨t, ht, he⟩ := ih h
      exact ⟨t, List.mem_cons_of_mem _ ht, he⟩
    | some first =>
      simp only [hw0] at h
      cases hf : weeks[first]? with
      | none =>
        simp only [hf, Except.error.injEq] at h
        refine ⟨s, List.mem_cons_self .., ?_⟩
        subst h
        exact ⟨rfl, List.getElem?_mem hw0, List.getElem?_eq_none_iff.1 hf⟩
      | some fw =>
        simp only [hf] at h
        cases htg : collectTargets s fw.start weeks s.weeks with
        | error e' =>
          simp only [htg, Except.error.injEq] at h
          obtain ⟨w, hw, he, hge⟩ := collectTargets_error htg
          subst h
          exact ⟨s, List.mem_cons_self ..,
            by simp [he, ExpandError.kind, ExpandError.week, hw, hge]⟩
        | ok pairs =>
          simp only [htg] at h
          cases hrest : collectRepeats weeks rest with
          | error e' =>
            simp only [hrest, Except.error.injEq] at h
            obtain ⟨t, ht, he⟩ := ih hrest
            exact ⟨t, List.mem_cons_of_mem _ ht, h ▸ he⟩
          | ok restPairs => simp [hrest] at h

theorem appendAt_getElem? :
    ∀ (weeks : List Week) (i : Nat) (s : Session) (j : Nat),
      (appendAt weeks i s)[j]? =
        if i = j then
          (weeks[j]?).map fun wk => { wk with sessions := wk.sessions ++ [s] }
        else weeks[j]?
  | [], i, s, j => by simp [appendAt]
  | w :: ws, 0, s, 0 => by simp [appendAt]
  | w :: ws, 0, s, j + 1 => by simp [appendAt]
  | w :: ws, i + 1, s, 0 => by simp [appendAt]
  | w :: ws, i + 1, s, j + 1 => by
    simp only [appendAt, List.getElem?_cons_succ]
    rw [appendAt_getElem? ws i s j]
    by_cases h : i = j <;> simp [h]

theorem appendAt_length (weeks : List Week) (i : Nat) (s : Session) :
    (appendAt weeks i s).length = weeks.length := by
  induction weeks generalizing i with
  | nil => rfl
  | cons w ws ih =>
    cases i with
    | zero => simp [appendAt]
    | succ n => simp [appendAt, ih]

theorem applyPushes_getElem? :
    ∀ (ps : List (Nat × Session)) (weeks : List Week) (j : Nat),
      (applyPushes weeks ps)[j]? = (weeks[j]?).map fun wk =>
        { wk with sessions := wk.sessions ++ (ps.filter fun p => p.1 == j).map (·.2) }
  | [], weeks, j => by
    cases h : weeks[j]? <;> simp [applyPushes, h]
  | (w, s) :: ps, weeks, j => by
    simp only [applyPushes]
    rw [applyPushes_getElem? ps (appendAt weeks w s) j, appendAt_getElem?]
    by_cases hwj : w = j
    · subst hwj
      cases h : weeks[w]? <;> simp [h, List.filter_cons]
    · have : (w == j) = false := by simp [hwj]
      cases h : weeks[j]? <;> simp [hwj, h, List.filter_cons, this]

theorem applyPushes_length (ps : List (Nat × Session)) :
    ∀ weeks : List Week, (applyPushes weeks ps).length = weeks.length := by
  induction ps with
  | nil => intro weeks; rfl
  | cons p ps ih =>
    intro weeks
    obtain ⟨w, s⟩ := p
    simp only [applyPushes]
    rw [ih, appendAt_length]

/-! ### Properties of the event projector -/

theorem presentationPairs_eq (a : Assignment) (c : Course) :
    a.presentationPairs c =
      a.presentations.flatMap fun p => p.weeks.flatMap (pairsForWeek c p) := by
  unfold Assignment.presentationPairs
  rw [List.flatMap_assoc, List.flatMap_assoc]
  congr 1
  funext p
  rw [List.flatMap_map]
  congr 1
  funext w
  cases h : c.weeks[w]? <;> simp [pairsForWeek, h]

theorem length_flatMap (l : List α) (f : α → List β) :
    (l.flatMap f).length = (l.map fun a => (f a).length).sum := by
  simp [List.flatMap, Function.comp_def]

theorem pres_filter_length (c : Course) (p : Presentation) :
    ((p.weeks.flatMap (pairsForWeek c p)).filter fun sp => sp.1.kind == sp.2.session).length
      = Presentation.matchCount c p := by
  rw [List.filter_flatMap, length_flatMap]
  unfold Presentation.matchCount
  refine congrArg List.sum (List.map_congr_left fun w _ => ?_)
  cases h : c.weeks[w]? <;>
    simp [pairsForWeek, h, List.filter_map, Function.comp_def]

theorem assignment_events_length (a : Assignment) (c : Course) :
    (a.events c).length =
      a.submissions.length + (a.presentations.map (Presentation.matchCount c)).sum := by
  unfold Assignment.events
  rw [List.length_append, List.length_map, List.length_map, presentationPairs_eq,
    List.filter_flatMap, length_flatMap]
  congr 1
  refine congrArg List.sum (List.map_congr_left fun p _ => ?_)
  exact pres_filter_length c p

/-- Totality: `Event.le` is total. -/
theorem Event.le_total (a b : Event) : Event.le a b || Event.le b a := by
  simp only [Event.le, ne_eq, Bool.or_eq_true, decide_eq_true_eq]
  cases h : Event.cmp a b with
  | lt => exact Or.inl (by simp)
  | eq => exact Or.inl (by simp)
  | gt =>
    have hlt : Event.cmp b a = .lt := OrientedCmp.cmp_eq_gt.1 h
    exact Or.inr (by simp [hlt])

theorem sum_map_add (l : List α) (f g : α → Nat) :
    (l.map fun a => f a + g a).sum = (l.map f).sum + (l.map g).sum := by
  induction l with
  | nil => rfl
  | cons x xs ih => simp only [List.map_cons, List.sum_cons, ih]; omega

/-- The output of `Course.events` is sorted for the boolean order of the
derived `Ord` (`mergeSort` with a transitive, total `le`). -/
theorem events_pairwise_le (c : Course) : c.events.Pairwise fun a b => Event.le a b := by
  exact List.sorted_mergeSort Event.le_trans Event.le_total _

/-- Splitting `Event.le` into its two lexicographic components. -/
theorem Event.le_iff (a b : Event) :
    Event.le a b ↔
      a.start ≤ b.start ∧ (a.start = b.start → EventBase.cmp a.base b.base ≠ .gt) := by
  simp only [Event.le, decide_eq_true_eq]
  show compareLex (Ordering.byKey Event.start compare)
      (Ordering.byKey Event.base EventBase.cmp) a b ≠ .gt ↔ _
  simp only [compareLex, Ordering.byKey, ne_eq, Ordering.then_eq_gt, not_or, not_and]
  constructor
  · rintro ⟨h₁, h₂⟩
    refine ⟨Batteries.LECmp.cmp_iff_le.1 h₁, fun hst => h₂ ?_⟩
    exact Batteries.BEqCmp.cmp_iff_eq.2 hst
  · rintro ⟨h₁, h₂⟩
    refine ⟨Batteries.LECmp.cmp_iff_le.2 h₁, fun heq => h₂ ?_⟩
    exact Batteries.BEqCmp.cmp_iff_eq.1 heq

/-- Claim C1: for every (expanded) course, `events()` yields exactly one
event per concrete session, plus one per submission of every
assignment, plus one per matching presentation/session pair — no more,
no fewer. -/
theorem c1_events_count (c : Course) :
    c.events.length = c.sessionCount + c.submissionCount + c.matchingPairCount := by
  unfold Course.events
  rw [List.length_mergeSort, List.length_append, List.length_map, length_flatMap,
    length_flatMap]
  unfold Course.sessionCount Course.submissionCount Course.matchingPairCount
  rw [List.map_congr_left fun a (_ : a ∈ c.assignments) => assignment_events_length a c,
    sum_map_add]
  omega

/-- Claim C2: the sequence returned by `events()` is non-decreasing by
start time; among events with an identical start the order agrees with
the derived field-order comparison of the provenance (`EventBase`), and
the same course yields the identical sequence on every call (the
embedding is a pure function, so the last conjunct is definitional). -/
theorem c2_events_sorted (c : Course) :
    c.events.Pairwise (fun a b =>
      a.start ≤ b.start ∧ (a.start = b.start → EventBase.cmp a.base b.base ≠ .gt)) ∧
    c.events = c.events :=
  ⟨(events_pairwise_le c).imp fun h => (Event.le_iff ..).1 h, rfl⟩

/-- Claim C7: every submission-derived event has duration exactly 5
minutes, end = deadline + 5 minutes, title
`"{assignment.name}: {submission.name} (submission)"`, no location, no
presenters, the assignment's link, and the submission's description
when present, otherwise the assignment's. -/
theorem c7_submission_event_fields (a : Assignment) (s : Submission) :
    (Event.mk s.time (.submission a s)).duration = 5 * 60 ∧
    (Event.mk s.time (.submission a s)).endTime = s.time + 5 * 60 ∧
    (Event.mk s.time (.submission a s)).title =
      a.name ++ ": " ++ s.name ++ " (submission)" ∧
    (Event.mk s.time (.submission a s)).location = none ∧
    (Event.mk s.time (.submission a s)).presenters = [] ∧
    (Event.mk s.time (.submission a s)).link = some a.link ∧
    (Event.mk s.time (.submission a s)).description =
      (match s.description with
       | some d => some d
       | none => a.description) := by
  refine ⟨rfl, rfl, ?_, rfl, rfl, rfl, rfl⟩
  simp [Event.title, String.append_assoc]

/-- A strictly smaller variant discriminant forces `lt` in the derived
`Ord` of `EventBase`. -/
theorem EventBase.tag_lt_cmp {b₁ b₂ : EventBase} (h : b₁.tag < b₂.tag) :
    EventBase.cmp b₁ b₂ = .lt := by
  cases b₁ <;> cases b₂ <;> first | rfl | simp [EventBase.tag] at h

/-- Claim C10 (implicit): among events with identical start times the
provenance variants sort in the fixed order
session < submission < presentation; consequently in the output of
`events()` a session-derived event never appears after a
submission/presentation-derived event with the same start, etc. -/
theorem c10_variant_order (c : Course) :
    (∀ e₁ e₂ : Event, e₁.start = e₂.start → e₁.base.tag < e₂.base.tag →
      Event.cmp e₁ e₂ = .lt) ∧
    c.events.Pairwise fun a b => a.start = b.start → a.base.tag ≤ b.base.tag := by
  have key : ∀ e₁ e₂ : Event, e₁.start = e₂.start → e₁.base.tag < e₂.base.tag →
      Event.cmp e₁ e₂ = .lt := by
    intro e₁ e₂ hst htag
    have hbase : EventBase.cmp e₁.base e₂.base = .lt := EventBase.tag_lt_cmp htag
    show (compare e₁.start e₂.start).then (EventBase.cmp e₁.base e₂.base) = .lt
    have hrefl : compare e₂.start e₂.start = Ordering.eq := Batteries.OrientedCmp.cmp_refl
    rw [hst, hrefl, hbase]
    rfl
  refine ⟨key, (events_pairwise_le c).imp fun {a b} h hst => ?_⟩
  by_contra htag
  push_neg at htag
  have hlt : Event.cmp b a = .lt := key b a hst.symm htag
  have hgt : Event.cmp a b = .gt := Batteries.OrientedCmp.cmp_eq_gt.2 hlt
  simp [Event.le, hgt] at h

/-- Witness for C10 at a concrete tie: the sample lecture session and
the sample presentation event share start time 100, and the
session-derived event compares `lt`. -/
theorem c10_witness :
    Event.cmp (Event.mk 100 (.session sampleSession))
      (Event.mk 100 (.presentation sampleAssignment samplePresentation sampleSession)) = .lt :=
  (c10_variant_order sampleCourse).1
    (Event.mk 100 (.session sampleSession))
    (Event.mk 100 (.presentation sampleAssignment samplePresentation sampleSession))
    rfl (by decide)

/-- Claim C6: a presentation week index that is out of range, or an
in-range week with no session of the matching kind, contributes zero
pairs (hence zero events); the projector is a total function (it never
fails), in contrast with the expander's strict bounds-checking. -/
theorem c6_presentation_skip (c : Course) (a : Assignment) (p : Presentation) (w : Nat)
    (h : c.weeks.length ≤ w ∨
      ∃ wk, c.weeks[w]? = some wk ∧ ∀ s ∈ wk.sessions, s.kind ≠ p.session) :
    ((pairsForWeek c p w).filter fun sp => sp.1.kind == sp.2.session) = [] ∧
    a.presentationPairs c =
      a.presentations.flatMap fun q => q.weeks.flatMap (pairsForWeek c q) := by
  refine ⟨?_, presentationPairs_eq a c⟩
  rcases h with h | ⟨wk, hw, hk⟩
  · simp [pairsForWeek, List.getElem?_eq_none h]
  · have hnone : ∀ s ∈ wk.sessions, ¬(s.kind == p.session) = true := by
      intro s hs
      simpa using hk s hs
    simp only [pairsForWeek, hw, List.filter_map]
    rw [show ((fun sp : Session × Presentation => sp.1.kind == sp.2.session) ∘
        fun s => (s, p)) = fun s => s.kind == p.session from rfl]
    rw [List.filter_eq_nil_iff.2 hnone]
    rfl

theorem generate_repeats_ok_inv {c c' : Course}
    (hok : c.generate_repeats = (none, c')) :
    ∃ ps, collectRepeats c.weeks c.repeat_sessions = .ok ps ∧
      c' = { c with weeks := applyPushes c.weeks ps } := by
  unfold Course.generate_repeats at hok
  cases hcol : collectRepeats c.weeks c.repeat_sessions with
  | error e => simp [hcol] at hok
  | ok ps =>
    simp only [hcol, Prod.mk.injEq] at hok
    exact ⟨ps, rfl, hok.2.symm⟩

theorem applyPushes_start (weeks : List Week) (ps : List (Nat × Session)) (j : Nat) :
    ((applyPushes weeks ps)[j]?).map Week.start = (weeks[j]?).map Week.start := by
  rw [applyPushes_getElem?]
  cases weeks[j]? <;> rfl

theorem collectTargets_invariant {s : RepeatSession} {fs : Int} {W W' : List Week}
    (hst : ∀ j : Nat, (W'[j]?).map Week.start = (W[j]?).map Week.start) :
    ∀ targets, collectTargets s fs W' targets = collectTargets s fs W targets := by
  intro targets
  induction targets with
  | nil => rfl
  | cons w ws ih =>
    cases hw : W[w]? with
    | none =>
      have hw' : W'[w]? = none := by
        have h := hst w
        rw [hw] at h
        cases hww : W'[w]? with
        | none => rfl
        | some wk' => rw [hww] at h; simp at h
      simp only [collectTargets, ih, hw, hw']
    | some wk =>
      obtain ⟨wk', hww, hstart⟩ : ∃ wk', W'[w]? = some wk' ∧ wk'.start = wk.start := by
        have h := hst w
        rw [hw] at h
        cases hww : W'[w]? with
        | none => rw [hww] at h; simp at h
        | some wk' => rw [hww] at h; simp at h; exact ⟨wk', rfl, h⟩
      simp only [collectTargets, ih, hw, hww, hstart]

theorem collectRepeats_invariant {W W' : List Week}
    (hst : ∀ j : Nat, (W'[j]?).map Week.start = (W[j]?).map Week.start) :
    ∀ ts, collectRepeats W' ts = collectRepeats W ts := by
  intro ts
  induction ts with
  | nil => rfl
  | cons s rest ih =>
    cases hw0 : s.weeks[0]? with
    | none => simp only [collectRepeats, hw0, ih]
    | some first =>
      cases hf : W[first]? with
      | none =>
        have hf' : W'[first]? = none := by
          have h := hst first
          rw [hf] at h
          cases hff : W'[first]? with
          | none => rfl
          | some fw' => rw [hff] at h; simp at h
        simp only [collectRepeats, hw0, hf, hf', ih]
      | some fw =>
        obtain ⟨fw', hff, hstart⟩ : ∃ fw', W'[first]? = some fw' ∧ fw'.start = fw.start := by
          have h := hst first
          rw [hf] at h
          cases hff : W'[first]? with
          | none => rw [hff] at h; simp at h
          | some fw' => rw [hff] at h; simp at h; exact ⟨fw', rfl, h⟩
        simp only [collectRepeats, hw0, hf, hff, hstart, ih, collectTargets_invariant hst]

/-- Witness for C6: week index 5 is out of range for the sample course,
so the sample presentation contributes no pairs there. -/
theorem c6_witness :
    ((pairsForWeek sampleCourse samplePresentation 5).filter
       fun sp => sp.1.kind == sp.2.session) = [] ∧
    sampleAssignment.presentationPairs sampleCourse =
      sampleAssignment.presentations.flatMap fun q =>
        q.weeks.flatMap (pairsForWeek sampleCourse q) :=
  c6_presentation_skip sampleCourse sampleAssignment samplePresentation 5
    (Or.inl (by decide))



/-- Claim C3: for every template with a non-empty week list, a successful
expansion contributes exactly one collected pair per listed week index
(duplicate indices give duplicate pairs), each generated session's time
being `targetWeek.start + (template.first − referenceWeek.start)` with
kind/title/location/presenters/duration copied from the template; the
collected pairs are exactly what gets appended to the weeks. -/
theorem c3_template_expansion (c c' : Course)
    (hok : c.generate_repeats = (none, c')) :
    (∀ t ∈ c.repeat_sessions, ∀ w0 rest, t.weeks = w0 :: rest →
      templateContribution c.weeks t = t.weeks.map fun i =>
        (i, { kind := t.kind, title := t.title, location := t.location,
              presenters := t.presenters, duration := t.duration,
              time := ((c.weeks[i]?).getD default).start +
                (t.first - ((c.weeks[w0]?).getD default).start) })) ∧
    (∀ t ∈ c.repeat_sessions, (templateContribution c.weeks t).length = t.weeks.length) ∧
    collectRepeats c.weeks c.repeat_sessions =
      .ok (c.repeat_sessions.flatMap (templateContribution c.weeks)) ∧
    (∀ j : Nat, c'.weeks[j]? = (c.weeks[j]?).map fun wk =>
      { wk with sessions := wk.sessions ++
          (((c.repeat_sessions.flatMap (templateContribution c.weeks)).filter
            fun pr => pr.1 == j).map (·.2)) }) := by
  obtain ⟨ps, hcol, rfl⟩ := generate_repeats_ok_inv hok
  obtain ⟨hbnd, hps⟩ := collectRepeats_ok hcol
  refine ⟨?_, ?_, ?_, ?_⟩
  · intro t _ w0 rest hw
    simp only [templateContribution, hw, List.getElem?_cons_zero]
    rw [← hw]
    refine List.map_congr_left fun i _ => ?_
    simp [RepeatSession.duplicate]
  · intro t _
    cases hw : t.weeks[0]? with
    | none =>
      have : t.weeks = [] := by
        cases hc : t.weeks with
        | nil => rfl
        | cons a l => rw [hc] at hw; simp at hw
      simp [templateContribution, hw, this]
    | some w0 => simp [templateContribution, hw]
  · rw [hcol, hps]
  · intro j
    show (applyPushes c.weeks ps)[j]? = _
    rw [applyPushes_getElem?, hps]

/-- Witness for C3: the collect phase of the sample course produces
exactly the per-template contributions. -/
theorem c3_witness :
    collectRepeats sampleCourse.weeks sampleCourse.repeat_sessions =
      .ok (sampleCourse.repeat_sessions.flatMap (templateContribution sampleCourse.weeks)) :=
  (c3_template_expansion sampleCourse sampleCourse.generate_repeats.2 rfl).2.2.1

/-- Claim C4: if any template references a week index (reference or
target) that does not exist, `generate_repeats` fails with an error
carrying the kind and offending index of such a template, and the
course — in particular every week's session list — is left unchanged
(no partial expansion). -/
theorem c4_out_of_range_error (c : Course)
    (h : ∃ t ∈ c.repeat_sessions, ∃ i ∈ t.weeks, c.weeks.length ≤ i) :
    ∃ e, c.generate_repeats = (some e, c) ∧
      ∃ t ∈ c.repeat_sessions, e.kind = t.kind ∧ e.week ∈ t.weeks ∧
        c.weeks.length ≤ e.week := by
  cases hcol : collectRepeats c.weeks c.repeat_sessions with
  | ok ps =>
    obtain ⟨t, ht, i, hi, hge⟩ := h
    have := (collectRepeats_ok hcol).1 t ht i hi
    omega
  | error e =>
    refine ⟨e, ?_, collectRepeats_error hcol⟩
    unfold Course.generate_repeats
    simp [hcol]

/-- Witness for C4 on the course whose template names week 99. -/
theorem c4_witness :
    ∃ e, badCourse.generate_repeats = (some e, badCourse) ∧
      ∃ t ∈ badCourse.repeat_sessions, e.kind = t.kind ∧ e.week ∈ t.weeks ∧
        badCourse.weeks.length ≤ e.week :=
  c4_out_of_range_error badCourse (by decide)

/-- Two courses with the same weeks whose collect phases agree produce
the same expansion error and the same resulting weeks. -/
theorem generate_repeats_eq_of_collect_eq (cx cy : Course)
    (hw : cx.weeks = cy.weeks)
    (hcol : collectRepeats cx.weeks cx.repeat_sessions =
      collectRepeats cy.weeks cy.repeat_sessions) :
    cx.generate_repeats.1 = cy.generate_repeats.1 ∧
    cx.generate_repeats.2.weeks = cy.generate_repeats.2.weeks := by
  unfold Course.generate_repeats
  rw [hcol]
  cases collectRepeats cy.weeks cy.repeat_sessions with
  | error e => exact ⟨rfl, hw⟩
  | ok ps => exact ⟨rfl, by rw [hw]⟩

/-- Claim C5: a template whose week-index list is empty contributes no
pairs and causes no failure: the collect phase gives the same result as
if the template were absent, and `generate_repeats` returns the same
error (none or some) and the same weeks as on the course without it. -/
theorem c5_empty_weeks_skip (c : Course) (pre post : List RepeatSession) (t : RepeatSession)
    (hc : c.repeat_sessions = pre ++ t :: post) (ht : t.weeks = []) :
    collectRepeats c.weeks c.repeat_sessions = collectRepeats c.weeks (pre ++ post) ∧
    (c.generate_repeats.1 =
      ({ c with repeat_sessions := pre ++ post } : Course).generate_repeats.1) ∧
    (c.generate_repeats.2.weeks =
      ({ c with repeat_sessions := pre ++ post } : Course).generate_repeats.2.weeks) := by
  have hskip : ∀ pre' : List RepeatSession,
      collectRepeats c.weeks (pre' ++ t :: post) = collectRepeats c.weeks (pre' ++ post) := by
    intro pre'
    induction pre' with
    | nil => simp only [List.nil_append, collectRepeats, ht, List.getElem?_nil]
    | cons s rest ih =>
      simp only [List.cons_append, collectRepeats, List.append_eq, ih]
  have hcol : collectRepeats c.weeks c.repeat_sessions =
      collectRepeats c.weeks (pre ++ post) := by rw [hc]; exact hskip pre
  obtain ⟨h1, h2⟩ :=
    generate_repeats_eq_of_collect_eq c { c with repeat_sessions := pre ++ post } rfl hcol
  exact ⟨hcol, h1, h2⟩

/-- Witness for C5 on the course with a single empty-week-list
template. -/
theorem c5_witness :
    collectRepeats emptyWeeksCourse.weeks emptyWeeksCourse.repeat_sessions =
      collectRepeats emptyWeeksCourse.weeks ([] ++ []) ∧
    (emptyWeeksCourse.generate_repeats.1 =
      ({ emptyWeeksCourse with repeat_sessions := [] ++ [] } : Course).generate_repeats.1) ∧
    (emptyWeeksCourse.generate_repeats.2.weeks =
      ({ emptyWeeksCourse with repeat_sessions := [] ++ [] } : Course).generate_repeats.2.weeks) :=
  c5_empty_weeks_skip emptyWeeksCourse [] [] { sampleRepeat with weeks := [] } rfl rfl

/-- Claim C8: with no templates, expansion is a successful no-op; in
general a successful expansion changes nothing but the weeks' session
lists, which only grow by an appended suffix: course identity fields,
assignments, the templates themselves, the number of weeks and every
week's start timestamp are unchanged. -/
theorem c8_expansion_frame (c : Course) :
    (c.repeat_sessions = [] → c.generate_repeats = (none, c)) ∧
    (∀ c', c.generate_repeats = (none, c') →
      c'.code = c.code ∧ c'.name = c.name ∧ c'.link = c.link ∧
      c'.assignments = c.assignments ∧ c'.repeat_sessions = c.repeat_sessions ∧
      c'.weeks.length = c.weeks.length ∧
      (∀ j : Nat, (c'.weeks[j]?).map Week.start = (c.weeks[j]?).map Week.start) ∧
      (∀ j : Nat, ∃ suffix, (c'.weeks[j]?).map Week.sessions =
        (c.weeks[j]?).map fun wk => wk.sessions ++ suffix)) := by
  constructor
  · intro h
    have hcol : collectRepeats c.weeks c.repeat_sessions = .ok [] := by rw [h]; rfl
    unfold Course.generate_repeats
    rw [hcol]
    rfl
  · intro c' hok
    obtain ⟨ps, hcol, rfl⟩ := generate_repeats_ok_inv hok
    refine ⟨rfl, rfl, rfl, rfl, rfl, applyPushes_length .., fun j => applyPushes_start .., fun j => ?_⟩
    refine ⟨(ps.filter fun p => p.1 == j).map (·.2), ?_⟩
    show ((applyPushes c.weeks ps)[j]?).map Week.sessions = _
    rw [applyPushes_getElem?]
    cases c.weeks[j]? <;> rfl

/-- Witness for C8: the sample course without templates expands to
itself. -/
theorem c8_witness : noRepeatsCourse.generate_repeats = (none, noRepeatsCourse) :=
  (c8_expansion_frame noRepeatsCourse).1 rfl

/-- Claim C9: expansion is not idempotent: if some template has a
non-empty week list and a first expansion succeeded, a second expansion
also succeeds but appends a second copy of every generated session, so
the weeks after two runs differ from the weeks after one. -/
theorem c9_not_idempotent (c c' : Course) (t : RepeatSession)
    (ht : t ∈ c.repeat_sessions) (hne : t.weeks ≠ [])
    (h1 : c.generate_repeats = (none, c')) :
    ∃ c'', c'.generate_repeats = (none, c'') ∧ c''.weeks ≠ c'.weeks := by
  obtain ⟨ps, hcol, rfl⟩ := generate_repeats_ok_inv h1
  have hst : ∀ j : Nat, ((applyPushes c.weeks ps)[j]?).map Week.start =
      (c.weeks[j]?).map Week.start := fun j => applyPushes_start ..
  have hcol2 : collectRepeats (applyPushes c.weeks ps) c.repeat_sessions = .ok ps := by
    rw [collectRepeats_invariant hst, hcol]
  have h2 : ({ c with weeks := applyPushes c.weeks ps } : Course).generate_repeats =
      (none, { c with weeks := applyPushes (applyPushes c.weeks ps) ps }) := by
    unfold Course.generate_repeats
    rw [show ({ c with weeks := applyPushes c.weeks ps } : Course).weeks =
      applyPushes c.weeks ps from rfl, hcol2]
  refine ⟨_, h2, ?_⟩
  obtain ⟨hbnd, hps⟩ := collectRepeats_ok hcol
  obtain ⟨w0, rest, hw⟩ : ∃ w0 rest, t.weeks = w0 :: rest := by
    cases hc : t.weeks with
    | nil => exact absurd hc hne
    | cons a l => exact ⟨a, l, rfl⟩
  have hw0mem : w0 ∈ t.weeks := by rw [hw]; exact List.mem_cons_self ..
  obtain ⟨x, hx0⟩ : ∃ x, ((w0 : Nat), x) ∈ templateContribution c.weeks t := by
    simp only [templateContribution, hw, List.getElem?_cons_zero]
    rw [← hw]
    exact ⟨_, List.mem_map_of_mem _ hw0mem⟩
  have hx : ((w0 : Nat), x) ∈ ps := by
    rw [hps]
    exact List.mem_flatMap.2 ⟨t, ht, hx0⟩
  have hw0lt : w0 < c.weeks.length := hbnd t ht w0 hw0mem
  have hw0lt' : w0 < (applyPushes c.weeks ps).length := by
    rw [applyPushes_length]; exact hw0lt
  obtain ⟨wk', hwk'⟩ : ∃ wk', (applyPushes c.weeks ps)[w0]? = some wk' :=
    ⟨_, List.getElem?_eq_getElem hw0lt'⟩
  intro heq
  have hgot : ((applyPushes (applyPushes c.weeks ps) ps)[w0]? :) =
      (applyPushes c.weeks ps)[w0]? := by
    show ({ c with weeks := applyPushes (applyPushes c.weeks ps) ps } : Course).weeks[w0]? = _
    rw [heq]
  rw [applyPushes_getElem? ps (applyPushes c.weeks ps) w0, hwk'] at hgot
  simp only [Option.map_some', Option.some.injEq] at hgot
  have hsess : wk'.sessions ++ ((ps.filter fun p => p.1 == w0).map (·.2)) = wk'.sessions := by
    exact congrArg Week.sessions hgot
  have hflt : ((ps.filter fun p => p.1 == w0).map (·.2)) = [] :=
    List.append_right_eq_self.1 hsess
  have : ((w0 : Nat), x) ∈ ps.filter fun p => p.1 == w0 :=
    List.mem_filter.2 ⟨hx, by simp⟩
  have : (x : Session) ∈ (ps.filter fun p => p.1 == w0).map (·.2) :=
    List.mem_map_of_mem _ this
  rw [hflt] at this
  cases this

/-- Witness for C9: running the expander twice on the sample course
duplicates the generated tutorials. -/
theorem c9_witness :
    ∃ c'', sampleCourse.generate_repeats.2.generate_repeats = (none, c'') ∧
      c''.weeks ≠ sampleCourse.generate_repeats.2.weeks :=
  c9_not_idempotent sampleCourse sampleCourse.generate_repeats.2 sampleRepeat
    (by decide) (by decide) rfl
